import Mathlib

/- Verification of the backend core of a GTK `pass` front-end (src/app.py):
the command builder (PassRunner), the asynchronous process executor
(run_command_async), the store indexer (MainWindow._refresh_lists), the
search filter (MainWindow._on_search_changed) and the hierarchical folder
listing (MainWindow._load_folder_items).

Modelling conventions: a Python string is a list of characters; a relative
filesystem path is a list of `/`-free name components; the asynchronous
executor is modelled by the (finite) set of ways one call can resolve,
mapped to the list of callback deliveries it performs. -/

/-- Python strings are modelled as lists of characters. -/
abbrev Str := List Char

/-- Embed a Lean string literal as a character list. -/
def str (s : String) : Str := s.data

/-- The path separator used by `Path.as_posix` and by canonical entry names. -/
def slash : Char := '/'

/-- The backslash character (code 92), written via its code point. -/
def backslashChar : Char := Char.ofNat 92

/-- The single-quote character (code 39). -/
def squoteChar : Char := Char.ofNat 39

/-- The double-quote character (code 34). -/
def dquoteChar : Char := Char.ofNat 34

/- --------------------------------------------------------------------------
Async process executor, src/app.py lines 141-161 (run_command_async).
-------------------------------------------------------------------------- -/

/-- The triple passed to the `on_done` callback of `run_command_async`:
return code, decoded stdout, decoded stderr (app.py line 143). -/
structure ProcessResult where
  rc : Int
  out : Str
  err : Str
deriving DecidableEq

/-- The exhaustive ways a single `run_command_async` call resolves:
`Gio.Subprocess.new` raises (launch failure, line 146); `communicate_finish`
returns normally (line 152) with the `ok` flag, the `get_successful` flag,
the raw exit status and the two optional output byte buffers (decoded text
is modelled directly, `errors="replace"` decoding is total); or
`communicate_finish` raises (line 156), which is also how a triggered
`Gio.Cancellable` manifests (the pending operation completes with a
cancellation error). -/
inductive RunOutcome where
  | launchFail (msg : Str)
  | completed (ok : Bool) (successful : Bool) (exitStatus : Int)
      (outBytes errBytes : Option Str)
  | finishError (msg : Str)
  | cancelled (msg : Str)

/-- run_command_async (app.py lines 141-161), mapped to the list of
`on_done` invocations that one call performs for a given outcome.  On a
launch failure the function schedules `on_done(-1, "", str(e))` once and
returns (lines 146-148); otherwise the single `communicate_async` callback
either reports the decoded outputs with `rc = 0 if ok and successful else
exit_status` (lines 152-155) or, on any exception there - including
cancellation - reports `(-1, "", str(e))` (lines 156-157); each path ends
in exactly one `GLib.idle_add` delivery (lines 147, 159). -/
def run_command_async : RunOutcome → List ProcessResult
  | .launchFail msg => [⟨-1, [], msg⟩]
  | .completed ok successful exitStatus outBytes errBytes =>
      [⟨if ok && successful then 0 else exitStatus, outBytes.getD [], errBytes.getD []⟩]
  | .finishError msg => [⟨-1, [], msg⟩]
  | .cancelled msg => [⟨-1, [], msg⟩]

/- --------------------------------------------------------------------------
Command builder, src/app.py lines 73-136 (PassRunner).
-------------------------------------------------------------------------- -/

/-- The configuration snapshot read by PassRunner: `backend`, `custom_cmd`
and `store_path` (app.py lines 44-46, accessed at lines 93, 100, 128). -/
structure Config where
  backend : Str
  custom_cmd : Str
  store_path : Str
deriving DecidableEq

/-- The host facts `_container_cmd` reads: `os.getuid()`, `os.getgid()`,
`pathlib.Path.home()`, and whether `~/.gnupg` is a directory
(app.py lines 97-99, 104, 108, 112). -/
structure HostEnv where
  uid : Nat
  gid : Nat
  home : Str
  gpgIsDir : Bool
deriving DecidableEq

/-- Decimal rendering of a numeric id, as Python f-string interpolation does. -/
def natStr (n : Nat) : Str := (Nat.repr n).data

/-- shlex.split worker: posix-mode shell word splitting.  `quote` is the
open quote character if any, `inWord` whether a token is in progress, `cur`
the reversed accumulator of the current token.  Outside quotes, whitespace
ends a token, a quote character opens a quoted section, and a backslash
escapes the next character; inside double quotes a backslash escapes only
`"` and `\`; inside single quotes nothing is special.  `none` models the
ValueError that Python shlex raises on malformed input: end of input while
a quote is open ("No closing quotation") or right after an escape
character ("No escaped character"). -/
def shlexAux : List Char → Option Char → Bool → Str → Option (List Str)
  | [], none, inWord, cur => some (if inWord then [cur.reverse] else [])
  | [], some _, _, _ => none
  | c :: rest, some q, _, cur =>
    if c = q then shlexAux rest none true cur
    else if q = dquoteChar ∧ c = backslashChar then
      match rest with
      | [] => none
      | d :: rest2 =>
        if d = dquoteChar ∨ d = backslashChar then shlexAux rest2 (some q) true (d :: cur)
        else shlexAux rest2 (some q) true (d :: c :: cur)
    else shlexAux rest (some q) true (c :: cur)
  | c :: rest, none, inWord, cur =>
    if c.isWhitespace then
      (if inWord then (shlexAux rest none false []).map (cur.reverse :: ·)
       else shlexAux rest none false [])
    else if c = squoteChar ∨ c = dquoteChar then shlexAux rest (some c) true cur
    else if c = backslashChar then
      match rest with
      | [] => none
      | d :: rest2 => shlexAux rest2 none true (d :: cur)
    else shlexAux rest none true (c :: cur)

/-- `shlex.split`, used by `PassRunner._custom_cmd` (app.py line 93):
`some tokens` on success, `none` when it raises ValueError. -/
def shlexSplit (s : Str) : Option (List Str) := shlexAux s none false []

/-- PassRunner._host_cmd (app.py lines 87-88): `["pass", *args]`. -/
def hostCmd (args : List Str) : List Str := str "pass" :: args

/-- PassRunner._custom_cmd (app.py lines 90-94):
`[*shlex.split(cfg["custom_cmd"]), *args]`; a ValueError raised by
`shlex.split` propagates uncaught (`none`). -/
def customCmd (cfg : Config) (args : List Str) : Option (List Str) :=
  (shlexSplit cfg.custom_cmd).map (· ++ args)

/-- PassRunner._container_cmd (app.py lines 96-125).  The initial `mounts`
assignment at line 102 is dead code (both branches at lines 105-113
reassign it) and is therefore not modelled separately.  For podman each
mount spec gets the SELinux `:Z` relabel suffix; for docker it does not;
the gnupg mount is emitted only when `~/.gnupg` is a directory; `args` is
appended last (line 125). -/
def containerCmd (cfg : Config) (env : HostEnv) (engine : Str) (args : List Str) : List Str :=
  let gpg := env.home ++ str "/.gnupg"
  let mounts :=
    if engine = str "podman" then
      [str "-v", cfg.store_path ++ str ":/home/app/.password-store:Z"] ++
        (if env.gpgIsDir then [str "-v", gpg ++ str ":/home/app/.gnupg:Z"] else [])
    else
      [str "-v", cfg.store_path ++ str ":/home/app/.password-store"] ++
        (if env.gpgIsDir then [str "-v", gpg ++ str ":/home/app/.gnupg"] else [])
  let base :=
    [engine, str "run", str "--rm",
     str "--user", natStr env.uid ++ str ":" ++ natStr env.gid,
     str "-e", str "HOME=/home/app",
     str "-w", str "/home/app"] ++ mounts ++
    [str "ghcr.io/noobping/pass:latest", str "pass"]
  base ++ args

/-- PassRunner.build (app.py lines 127-136): dispatch on the backend
string, with any unrecognised value falling through to custom.  Only the
custom branch can raise (through `shlex.split`); `none` models that
exception propagating out of `build`. -/
def build (cfg : Config) (env : HostEnv) (args : List Str) : Option (List Str) :=
  if cfg.backend = str "host" then some (hostCmd args)
  else if cfg.backend = str "podman" then some (containerCmd cfg env (str "podman") args)
  else if cfg.backend = str "docker" then some (containerCmd cfg env (str "docker") args)
  else customCmd cfg args

/-- The `-v <spec>` mount specifications of an argument vector, as a
container engine would collect them. -/
def mountSpecs : List Str → List Str
  | a :: b :: rest => if a = str "-v" then b :: mountSpecs rest else mountSpecs (b :: rest)
  | _ => []

/- --------------------------------------------------------------------------
Store indexer, src/app.py lines 503-518 (MainWindow._refresh_lists).
-------------------------------------------------------------------------- -/

/-- A path relative to the store root, as `Path.relative_to` yields it:
the leading directory components and the final file name.  On the modelled
(posix) filesystem a name component never contains `/`. -/
structure RelPath where
  parts : List Str
  fname : Str
deriving DecidableEq

/-- All name components of a relative path, directories first. -/
def components (p : RelPath) : List Str := p.parts ++ [p.fname]

/-- Join a list of components with a separator character. -/
def joinSep (c : Char) : List Str → Str
  | [] => []
  | [x] => x
  | x :: y :: ys => x ++ c :: joinSep c (y :: ys)

/-- Join with `/`, as `"/".join(...)` and `Path.as_posix` do. -/
def joinSlash (l : List Str) : Str := joinSep slash l

/-- `p.relative_to(store).as_posix()` (app.py line 509). -/
def relPosix (p : RelPath) : Str := joinSlash (components p)

/-- Whether `store.rglob("*.gpg")` yields this path (app.py line 508):
fnmatch of the file name against `*.gpg`, i.e. the name ends with `.gpg`
(`*` may match the empty string; a leading dot is not special to pathlib's
globbing, so hidden files match too). -/
def gpgMatch (p : RelPath) : Bool := decide (str ".gpg" <:+ p.fname)

/-- `rel[:-4] if rel.endswith(".gpg") else rel` (app.py line 510). -/
def canonicalOf (rel : Str) : Str :=
  if str ".gpg" <:+ rel then rel.take (rel.length - 4) else rel

/-- An index entry (app.py lines 166-172): the canonical `pass` key and the
path of the encrypted file it came from. -/
structure Entry where
  name : Str
  path : RelPath
deriving DecidableEq

/-- The entry-building loop of `_refresh_lists` (app.py lines 508-511),
applied to the files `rglob` yields: keep the `*.gpg` matches, in order,
and build one Entry per file. -/
def scanEntries (files : List RelPath) : List Entry :=
  (files.filter gpgMatch).map (fun p => ⟨canonicalOf (relPosix p), p⟩)

/-- `str.lower()`, character by character. -/
def lowerStr (s : Str) : Str := s.map Char.toLower

/-- Lexicographic `≤` on strings by code point, Python's string order. -/
def lexLe : Str → Str → Bool
  | [], _ => true
  | _ :: _, [] => false
  | a :: x, b :: y =>
    if a.toNat < b.toNat then true
    else if b.toNat < a.toNat then false
    else lexLe x y

/-- The sort key of `items.sort(key=lambda e: e.name.lower())`
(app.py line 512): compare lower-cased canonical names. -/
def entryLe (a b : Entry) : Prop := lexLe (lowerStr a.name) (lowerStr b.name) = true

instance : DecidableRel entryLe := fun a b => by unfold entryLe; infer_instance

/-- `items.sort(key=lambda e: e.name.lower())` (app.py line 512). -/
def sortEntries (l : List Entry) : List Entry := List.insertionSort entryLe l

/-- MainWindow._refresh_lists, lines 503-513: when the store path is a
directory, scan it; otherwise the items list stays empty; either way the
(possibly empty) list is sorted and becomes `self.entries`. -/
def refreshLists (isDir : Bool) (files : List RelPath) : List Entry :=
  sortEntries (if isDir then scanEntries files else [])

/-- The store-presence check of MainWindow._check_environment (app.py
lines 491-501): a warning banner is shown iff the store path is not a
directory. -/
def checkStoreWarn (isDir : Bool) : Bool := !isDir

/- --------------------------------------------------------------------------
Search filter, src/app.py lines 410-416 (MainWindow._on_search_changed).
-------------------------------------------------------------------------- -/

/-- `str.strip()`: drop leading and trailing whitespace. -/
def stripStr (s : Str) : Str :=
  ((s.dropWhile Char.isWhitespace).reverse.dropWhile Char.isWhitespace).reverse

/-- MainWindow._on_search_changed (app.py lines 410-416):
`query = text.strip().lower()`; an empty query keeps a copy of the full
entry list, otherwise keep the entries whose lower-cased name contains the
query as a substring, in order. -/
def onSearchChanged (entries : List Entry) (raw : Str) : List Entry :=
  let q := lowerStr (stripStr raw)
  if q = [] then entries
  else entries.filter (fun e => decide (q <:+: lowerStr e.name))

/- --------------------------------------------------------------------------
Folder listing, src/app.py lines 548-565 (MainWindow._load_folder_items).
-------------------------------------------------------------------------- -/

/-- `rest.split("/", 1)[0]`: the characters before the first `/`. -/
def firstSeg (r : Str) : Str := r.takeWhile (fun ch => ch != slash)

/-- `"/" in rest`. -/
def hasSlash (r : Str) : Bool := decide (slash ∈ r)

/-- The per-entry step of `_load_folder_items` (app.py lines 553-556): with
`pfx = "/".join(folder_path)`, an entry is considered iff `pfx` is empty or
its name starts with `pfx + "/"`; the remainder is the name with `pfx`
and the following slash removed (the whole name when `pfx` is empty). -/
def folderRest (pfx : Str) (n : Str) : Option Str :=
  if pfx = [] then some n
  else if (pfx ++ [slash]) <+: n then some (n.drop (pfx.length + 1)) else none

/-- The remainders of all entries under the current folder path. -/
def folderRests (entries : List Entry) (path : List Str) : List Str :=
  entries.filterMap (fun e => folderRest (joinSlash path) e.name)

/-- The child-directory names collected into `seen_dirs` (app.py
lines 557-559): first segment of each remainder that still contains `/`. -/
def folderDirs (entries : List Entry) (path : List Str) : List Str :=
  ((folderRests entries path).filter (fun r => hasSlash r)).map firstSeg

/-- The child-file names collected into `files` (app.py lines 560-561):
the remainders without `/`. -/
def folderFiles (entries : List Entry) (path : List Str) : List Str :=
  (folderRests entries path).filter (fun r => !hasSlash r)

/-- Python's default string order on our strings, for `sorted(...)`. -/
def strLe (a b : Str) : Prop := lexLe a b = true

instance : DecidableRel strLe := fun a b => by unfold strLe; infer_instance

/-- MainWindow._load_folder_items (app.py line 562): the rendered listing,
deduplicated sorted directories first, then sorted files. -/
def loadFolderItems (entries : List Entry) (path : List Str) : List (Str × Bool) :=
  ((List.insertionSort strLe (folderDirs entries path).dedup).map (fun d => (d, true))) ++
    ((List.insertionSort strLe (folderFiles entries path)).map (fun f => (f, false)))

/-- The folder paths reachable from the root by repeatedly activating a
child directory of the current listing (app.py lines 424-431). -/
inductive ReachDir (entries : List Entry) : List Str → Prop where
  | nil : ReachDir entries []
  | snoc {p : List Str} {d : Str} : ReachDir entries p →
      (d, true) ∈ loadFolderItems entries p → ReachDir entries (p ++ [d])

/-- A canonical name is reconstructed by the hierarchical view when some
reachable folder path lists it as a child file; the full name is the path
joined with the file name (app.py line 433). -/
def Reconstructed (entries : List Entry) (n : Str) : Prop :=
  ∃ p f, ReachDir entries p ∧ (f, false) ∈ loadFolderItems entries p ∧
    n = joinSlash (p ++ [f])

/-- Split a string at every occurrence of a character; always nonempty,
inverse of `joinSep`. -/
def splitOnChar (c : Char) : Str → List Str
  | [] => [[]]
  | a :: rest =>
    if a = c then [] :: splitOnChar c rest
    else
      match splitOnChar c rest with
      | [] => [[a]]
      | s :: ss => (a :: s) :: ss

/-- A canonical name is well formed when none of its directory segments
(all `/`-separated segments except the last) is empty.  Every name the
scanner produces from a valid store is well formed. -/
def goodNameB (n : Str) : Bool :=
  ((splitOnChar slash n).dropLast).all (fun s => !s.isEmpty)

/-- A relative path is valid when every component is a nonempty `/`-free
name, as on a real (posix) filesystem. -/
def validPathB (p : RelPath) : Bool :=
  (components p).all (fun c => !c.isEmpty && !hasSlash c)

/- --------------------------------------------------------------------------
Spec-side comparison definitions (refinement claims C3 and C7).
-------------------------------------------------------------------------- -/

/-- Spec error taxonomy: malformed custom command. -/
inductive ConfigError where
  | emptyCustomCommand
deriving DecidableEq

/-- Spec error taxonomy: store root missing or unreadable. -/
inductive StoreError where
  | notReadableDir
deriving DecidableEq

/-- Modelled from the spec, for comparison with the code (claim C7):
given the tokens of a successful tokenization, the Custom strategy "fails
with ConfigError if tokenization yields zero tokens", otherwise the tokens
become program plus leading args followed by the logical args. -/
def specCustomBuild (tokens : List Str) (args : List Str) : Except ConfigError (List Str) :=
  match tokens with
  | [] => .error .emptyCustomCommand
  | t :: ts => .ok (t :: ts ++ args)

/-- Modelled from the spec, for comparison with the code (claim C3): scan
"fails with StoreError if storeRoot is not a readable directory". -/
def specScan (isDir : Bool) (files : List RelPath) : Except StoreError (List Entry) :=
  if isDir then .ok (refreshLists true files) else .error .notReadableDir

/- --------------------------------------------------------------------------
Basic lemmas about the string and path helpers.
-------------------------------------------------------------------------- -/

theorem joinSep_cons_cons (c : Char) (x y : Str) (ys : List Str) :
    joinSep c (x :: y :: ys) = x ++ c :: joinSep c (y :: ys) := rfl

theorem joinSep_append (c : Char) : ∀ (A : List Str), A ≠ [] → ∀ B, B ≠ [] →
    joinSep c (A ++ B) = joinSep c A ++ c :: joinSep c B
  | [], h, _, _ => absurd rfl h
  | _ :: _, _, [], h => absurd rfl h
  | [_], _, _ :: _, _ => rfl
  | x :: y :: ys, _, b :: bs, _ => by
    have ih := joinSep_append c (y :: ys) (by simp) (b :: bs) (by simp)
    show joinSep c (x :: (y :: ys ++ b :: bs)) = (x ++ c :: joinSep c (y :: ys)) ++ c :: joinSep c (b :: bs)
    rw [show (y :: ys ++ b :: bs : List Str) = y :: (ys ++ b :: bs) from rfl, joinSep_cons_cons,
      show (y :: (ys ++ b :: bs) : List Str) = y :: ys ++ b :: bs from rfl, ih]
    simp [joinSep_cons_cons, List.append_assoc]

/- --------------------------------------------------------------------------
C1 and C2: the asynchronous executor.
-------------------------------------------------------------------------- -/

/-- C1: for every call to run_command_async, the completion callback is
invoked exactly once - whether the child launches and completes, fails to
launch, the finish step raises, or the call is cancelled before
completion. -/
theorem claim1_onDone_exactly_once (o : RunOutcome) : (run_command_async o).length = 1 := by
  cases o <;> rfl

/-- C2: on a launch failure, run_command_async delivers exactly the result
`{rc: -1, out: "", err: diagnostic}`, whose stderr is non-empty whenever
the raised exception carries a non-empty message (as GLib errors do). -/
theorem claim2_launch_failure_result (msg : Str) (h : msg ≠ []) :
    run_command_async (.launchFail msg) = [⟨-1, [], msg⟩] ∧
      ∀ r ∈ run_command_async (.launchFail msg),
        r.rc = -1 ∧ r.out = [] ∧ r.err = msg ∧ r.err ≠ [] := by
  refine ⟨rfl, ?_⟩
  intro r hr
  have : r = ⟨-1, [], msg⟩ := by simpa [run_command_async] using hr
  subst this
  exact ⟨rfl, rfl, rfl, h⟩

/-- Witness for C2 at an actual diagnostic text. -/
theorem claim2_witness :
    run_command_async (.launchFail (str "No such file or directory")) =
      [⟨-1, [], str "No such file or directory"⟩] :=
  (claim2_launch_failure_result (str "No such file or directory") (by decide)).1

/- --------------------------------------------------------------------------
C3: scan of a store root that is not a directory.
-------------------------------------------------------------------------- -/

/-- C3 counterexample: the claim says a non-directory store root makes the
scan fail with a typed StoreError; in the code `_refresh_lists` simply
skips the scan and succeeds with an empty entry list - indistinguishable
from scanning an empty store - while the spec-side contract errors. -/
theorem claim3_counterexample :
    refreshLists false [⟨[], str "a.gpg"⟩] = [] ∧
      refreshLists false [⟨[], str "a.gpg"⟩] = refreshLists true [] ∧
      specScan false [⟨[], str "a.gpg"⟩] = .error .notReadableDir := by
  exact ⟨rfl, rfl, rfl⟩

/-- C3 amended: when the store root is not a directory the scan succeeds
with an empty Index (no crash, no typed error); the missing store is
reported separately by the `_check_environment` banner, which fires iff
the store path is not a directory. -/
theorem claim3_scan_missing_store :
    (∀ files, refreshLists false files = []) ∧
      checkStoreWarn false = true ∧ checkStoreWarn true = false :=
  ⟨fun _ => rfl, rfl, rfl⟩

/- --------------------------------------------------------------------------
C7: the custom backend tokenization.
-------------------------------------------------------------------------- -/

/-- C7 counterexample: on a whitespace-only custom command, tokenization
succeeds with zero tokens, yet build does not fail with a ConfigError - it
returns the bare logical args (so the first logical arg would become the
program), while the spec-side contract errors on zero tokens. -/
theorem claim7_counterexample :
    shlexSplit (str "  ") = some [] ∧
      build ⟨str "custom", str "  ", str "/s"⟩ ⟨0, 0, str "/root", false⟩ [str "show", str "a"] =
        some [str "show", str "a"] ∧
      specCustomBuild [] [str "show", str "a"] = .error .emptyCustomCommand := by
  exact ⟨by decide, by decide, rfl⟩

/-- C7 amended: with the custom backend, build applies shell-style word
splitting to `custom_cmd` and prepends the tokens to the logical args;
when tokenization succeeds with zero tokens no error is raised and the
result is the bare logical args; when tokenization itself raises
(unterminated quote or dangling escape) the exception propagates and
build delivers no invocation at all. -/
theorem claim7_custom_tokens (cfg : Config) (env : HostEnv) (args : List Str)
    (h : cfg.backend = str "custom") :
    build cfg env args = (shlexSplit cfg.custom_cmd).map (· ++ args) ∧
      (shlexSplit cfg.custom_cmd = some [] → build cfg env args = some args) ∧
      (shlexSplit cfg.custom_cmd = none → build cfg env args = none) := by
  have hb : build cfg env args = customCmd cfg args := by
    unfold build
    rw [if_neg (by rw [h]; decide), if_neg (by rw [h]; decide), if_neg (by rw [h]; decide)]
  refine ⟨hb, ?_, ?_⟩
  · intro h0
    rw [hb]
    show (shlexSplit cfg.custom_cmd).map (· ++ args) = some args
    rw [h0]
    rfl
  · intro h0
    rw [hb]
    show (shlexSplit cfg.custom_cmd).map (· ++ args) = none
    rw [h0]
    rfl

/-- Witness for C7 at the spec's own example configuration and at a
malformed (unterminated-quote) custom command, on which the real
`shlex.split` raises and build delivers nothing. -/
theorem claim7_witness :
    build ⟨str "custom", str "/x/y pass", str "/s"⟩ ⟨0, 0, str "/h", false⟩
        [str "show", str "a"] = some [str "/x/y", str "pass", str "show", str "a"] ∧
      build ⟨str "custom", squoteChar :: str "oops", str "/s"⟩ ⟨0, 0, str "/h", false⟩
        [str "show"] = none := by
  have h1 := claim7_custom_tokens ⟨str "custom", str "/x/y pass", str "/s"⟩
    ⟨0, 0, str "/h", false⟩ [str "show", str "a"] (by decide)
  have h2 := claim7_custom_tokens ⟨str "custom", squoteChar :: str "oops", str "/s"⟩
    ⟨0, 0, str "/h", false⟩ [str "show"] (by decide)
  exact ⟨by rw [h1.1]; decide, h2.2.2 (by decide)⟩

/- --------------------------------------------------------------------------
C8: the container invocation.
-------------------------------------------------------------------------- -/

theorem toDigitsCore_len (b : Nat) : ∀ (fuel n : Nat) (ds : List Char),
    ds.length < (Nat.toDigitsCore b (fuel + 1) n ds).length := by
  intro fuel
  induction fuel with
  | zero =>
    intro n ds
    simp only [Nat.toDigitsCore]
    split
    · simp
    · simp [Nat.toDigitsCore]
  | succ f ih =>
    intro n ds
    simp only [Nat.toDigitsCore]
    split
    · simp
    · exact Nat.lt_trans (by simp) (ih (n / b) (Nat.digitChar (n % b) :: ds))

theorem natStr_ne_nil (n : Nat) : natStr n ≠ [] := by
  have h := toDigitsCore_len 10 n n []
  intro hcon
  have hdata : natStr n = Nat.toDigitsCore 10 (n + 1) n [] := rfl
  rw [hdata] at hcon
  rw [hcon] at h
  simp at h

theorem uidgid_ne_v (u g : Nat) : natStr u ++ str ":" ++ natStr g ≠ str "-v" := by
  intro h
  have hlen := congrArg List.length h
  have hu : 0 < (natStr u).length := List.length_pos.mpr (natStr_ne_nil u)
  have hg : 0 < (natStr g).length := List.length_pos.mpr (natStr_ne_nil g)
  have h1 : (str ":").length = 1 := rfl
  have h2 : (str "-v").length = 2 := rfl
  simp only [List.length_append, h1, h2] at hlen
  omega

theorem mountSpecs_skip (a b : Str) (rest : List Str) (h : a ≠ str "-v") :
    mountSpecs (a :: b :: rest) = mountSpecs (b :: rest) := by
  simp [mountSpecs, h]

theorem mountSpecs_v (b : Str) (rest : List Str) :
    mountSpecs (str "-v" :: b :: rest) = b :: mountSpecs rest := by
  simp [mountSpecs]

theorem mountSpecs_base (e u : Str) (he : e ≠ str "-v") (hu : u ≠ str "-v") (rest : List Str) :
    mountSpecs (e :: str "run" :: str "--rm" :: str "--user" :: u :: str "-e" ::
      str "HOME=/home/app" :: str "-w" :: str "/home/app" :: rest) =
      mountSpecs (str "/home/app" :: rest) := by
  rw [mountSpecs_skip _ _ _ he, mountSpecs_skip _ _ _ (by decide), mountSpecs_skip _ _ _ (by decide),
    mountSpecs_skip _ _ _ (by decide), mountSpecs_skip _ _ _ hu, mountSpecs_skip _ _ _ (by decide),
    mountSpecs_skip _ _ _ (by decide), mountSpecs_skip _ _ _ (by decide)]

theorem suffix_append_of_le (s xs ys : Str) (h : s.length ≤ ys.length) :
    s <:+ xs ++ ys ↔ s <:+ ys := by
  constructor
  · rintro ⟨t, ht⟩
    have hlen : t.length + s.length = xs.length + ys.length := by
      have := congrArg List.length ht
      simpa [List.length_append] using this
    have hxs : xs.length ≤ t.length := by omega
    have hys : ys = t.drop xs.length ++ s := by
      have h1 : (xs ++ ys).drop xs.length = ys := List.drop_left xs ys
      rw [← ht] at h1
      rw [List.drop_append_eq_append_drop] at h1
      rw [Nat.sub_eq_zero_of_le hxs] at h1
      simpa using h1.symm
    exact ⟨t.drop xs.length, hys.symm⟩
  · intro hs
    exact hs.trans (List.suffix_append xs ys)

theorem claim8_mounts_podman (cfg : Config) (env : HostEnv) :
    mountSpecs (containerCmd cfg env (str "podman") []) =
      (cfg.store_path ++ str ":/home/app/.password-store:Z") ::
        (if env.gpgIsDir then [env.home ++ str "/.gnupg" ++ str ":/home/app/.gnupg:Z"] else []) := by
  cases hg : env.gpgIsDir <;>
  · simp only [containerCmd, hg, if_pos rfl, if_neg, Bool.false_eq_true, ite_false, ite_true,
      List.cons_append, List.nil_append, List.append_nil]
    rw [mountSpecs_base _ _ (by decide) (uidgid_ne_v env.uid env.gid),
      mountSpecs_skip _ _ _ (by decide), mountSpecs_v]
    rfl

theorem claim8_mounts_docker (cfg : Config) (env : HostEnv) :
    mountSpecs (containerCmd cfg env (str "docker") []) =
      (cfg.store_path ++ str ":/home/app/.password-store") ::
        (if env.gpgIsDir then [env.home ++ str "/.gnupg" ++ str ":/home/app/.gnupg"] else []) := by
  cases hg : env.gpgIsDir <;>
  · simp only [containerCmd, hg, if_neg (show ¬(str "docker" = str "podman") by decide),
      Bool.false_eq_true, ite_false, ite_true,
      List.cons_append, List.nil_append, List.append_nil]
    rw [mountSpecs_base _ _ (by decide) (uidgid_ne_v env.uid env.gid),
      mountSpecs_skip _ _ _ (by decide), mountSpecs_v]
    rfl

/-- C8: under a container backend, build dispatches to the engine
invocation; the store is bind-mounted onto the in-container password-store
location, the gnupg directory is mounted iff it exists on the host, every
podman mount spec carries the `:Z` relabel marker while no docker mount
does, and the logical args are appended last. -/
theorem claim8_container_invocation (cfg : Config) (env : HostEnv) (args : List Str) :
    (cfg.backend = str "podman" →
      build cfg env args = some (containerCmd cfg env (str "podman") args)) ∧
    (cfg.backend = str "docker" →
      build cfg env args = some (containerCmd cfg env (str "docker") args)) ∧
    containerCmd cfg env (str "podman") args = containerCmd cfg env (str "podman") [] ++ args ∧
    containerCmd cfg env (str "docker") args = containerCmd cfg env (str "docker") [] ++ args ∧
    mountSpecs (containerCmd cfg env (str "podman") []) =
      (cfg.store_path ++ str ":/home/app/.password-store:Z") ::
        (if env.gpgIsDir then [env.home ++ str "/.gnupg" ++ str ":/home/app/.gnupg:Z"] else []) ∧
    mountSpecs (containerCmd cfg env (str "docker") []) =
      (cfg.store_path ++ str ":/home/app/.password-store") ::
        (if env.gpgIsDir then [env.home ++ str "/.gnupg" ++ str ":/home/app/.gnupg"] else []) ∧
    (∀ m ∈ mountSpecs (containerCmd cfg env (str "podman") []), str ":Z" <:+ m) ∧
    (∀ m ∈ mountSpecs (containerCmd cfg env (str "docker") []), ¬ str ":Z" <:+ m) := by
  refine ⟨?_, ?_, ?_, ?_, claim8_mounts_podman cfg env, claim8_mounts_docker cfg env, ?_, ?_⟩
  · intro h
    unfold build
    rw [if_neg (by rw [h]; decide), if_pos h]
  · intro h
    unfold build
    rw [if_neg (by rw [h]; decide), if_neg (by rw [h]; decide), if_pos h]
  · simp [containerCmd, List.append_assoc]
  · simp [containerCmd, List.append_assoc]
  · intro m hm
    rw [claim8_mounts_podman cfg env] at hm
    have hz1 : str ":Z" <:+ str ":/home/app/.password-store:Z" := by decide
    have hz2 : str ":Z" <:+ str ":/home/app/.gnupg:Z" := by decide
    rcases List.mem_cons.mp hm with h | h
    · subst h
      exact hz1.trans (List.suffix_append _ _)
    · cases hgd : env.gpgIsDir <;> rw [hgd] at h
      · simp at h
      · simp only [if_true, List.mem_singleton] at h
        subst h
        exact hz2.trans (List.suffix_append _ _)
  · intro m hm
    rw [claim8_mounts_docker cfg env] at hm
    rcases List.mem_cons.mp hm with h | h
    · subst h
      intro hcon
      exact absurd ((suffix_append_of_le _ _ _ (by decide)).mp hcon) (by decide)
    · cases hgd : env.gpgIsDir <;> rw [hgd] at h
      · simp at h
      · simp only [if_true, List.mem_singleton] at h
        subst h
        intro hcon
        rw [List.append_assoc] at hcon
        exact absurd ((suffix_append_of_le _ _ _ (by decide)).mp hcon) (by decide)

/-- Witness for C8 at a concrete podman configuration. -/
theorem claim8_witness :
    build ⟨str "podman", str "pass", str "/s"⟩ ⟨1000, 1000, str "/h", true⟩ [str "show"] =
      some (containerCmd ⟨str "podman", str "pass", str "/s"⟩ ⟨1000, 1000, str "/h", true⟩
        (str "podman") [str "show"]) ∧
    str ":Z" <:+ (str "/s" ++ str ":/home/app/.password-store:Z") := by
  have h := claim8_container_invocation ⟨str "podman", str "pass", str "/s"⟩
    ⟨1000, 1000, str "/h", true⟩ [str "show"]
  refine ⟨h.1 (by decide), ?_⟩
  refine h.2.2.2.2.2.2.1 _ ?_
  rw [h.2.2.2.2.1]
  exact List.mem_cons_self _ _

/- --------------------------------------------------------------------------
Split/join infrastructure for canonical names.
-------------------------------------------------------------------------- -/

theorem splitOnChar_ne_nil (c : Char) : ∀ s : Str, splitOnChar c s ≠ []
  | [] => by simp [splitOnChar]
  | a :: rest => by
    by_cases h : a = c
    · simp [splitOnChar, h]
    · simp only [splitOnChar, if_neg h]
      cases hsp : splitOnChar c rest <;> simp

theorem join_split (c : Char) : ∀ s : Str, joinSep c (splitOnChar c s) = s
  | [] => rfl
  | a :: rest => by
    have ih := join_split c rest
    by_cases h : a = c
    · cases hsp : splitOnChar c rest with
      | nil => exact absurd hsp (splitOnChar_ne_nil c rest)
      | cons s ss =>
        rw [hsp] at ih
        simp only [splitOnChar, if_pos h, hsp, joinSep_cons_cons, List.nil_append]
        rw [ih, h]
    · cases hsp : splitOnChar c rest with
      | nil => exact absurd hsp (splitOnChar_ne_nil c rest)
      | cons s ss =>
        rw [hsp] at ih
        simp only [splitOnChar, if_neg h, hsp]
        cases ss with
        | nil =>
          have hs : (s : Str) = rest := ih
          show (a :: s : Str) = a :: rest
          rw [hs]
        | cons s2 ss2 =>
          show (a :: s) ++ c :: joinSep c (s2 :: ss2) = a :: rest
          rw [← ih]
          rfl

theorem not_mem_splitOnChar (c : Char) : ∀ (s : Str) (x : Str), x ∈ splitOnChar c s → c ∉ x
  | [], x => by
    intro hx
    simp [splitOnChar] at hx
    simp [hx]
  | a :: rest, x => by
    intro hx
    by_cases h : a = c
    · simp only [splitOnChar, if_pos h] at hx
      rcases List.mem_cons.mp hx with h1 | h1
      · simp [h1]
      · exact not_mem_splitOnChar c rest x h1
    · simp only [splitOnChar, if_neg h] at hx
      cases hsp : splitOnChar c rest with
      | nil => exact absurd hsp (splitOnChar_ne_nil c rest)
      | cons s ss =>
        rw [hsp] at hx
        rcases List.mem_cons.mp hx with h1 | h1
        · subst h1
          have hs : c ∉ s := by
            refine not_mem_splitOnChar c rest s ?_
            rw [hsp]
            exact List.mem_cons_self _ _
          simp [List.mem_cons]
          exact ⟨fun hc => h hc.symm, hs⟩
        · refine not_mem_splitOnChar c rest x ?_
          rw [hsp]
          exact List.mem_cons_of_mem _ h1

theorem splitOnChar_of_not_mem (c : Char) : ∀ x : Str, c ∉ x → splitOnChar c x = [x]
  | [], _ => rfl
  | a :: x, h => by
    have ha : ¬a = c := fun hc => h (by simp [hc])
    have hx : c ∉ x := fun hc => h (List.mem_cons_of_mem _ hc)
    simp only [splitOnChar, if_neg ha, splitOnChar_of_not_mem c x hx]

theorem splitOnChar_append (c : Char) : ∀ (x t : Str), c ∉ x →
    splitOnChar c (x ++ c :: t) = x :: splitOnChar c t
  | [], t, _ => by simp [splitOnChar]
  | a :: x, t, h => by
    have ha : ¬a = c := fun hc => h (by simp [hc])
    have hx : c ∉ x := fun hc => h (List.mem_cons_of_mem _ hc)
    simp only [List.cons_append, splitOnChar, if_neg ha]
    rw [show x.append (c :: t) = x ++ c :: t from rfl, splitOnChar_append c x t hx]

theorem split_join (c : Char) : ∀ L : List Str, L ≠ [] → (∀ x ∈ L, c ∉ x) →
    splitOnChar c (joinSep c L) = L
  | [], h, _ => absurd rfl h
  | [x], _, hL => by
    show splitOnChar c x = [x]
    exact splitOnChar_of_not_mem c x (hL x (by simp))
  | x :: y :: ys, _, hL => by
    rw [joinSep_cons_cons, splitOnChar_append c x (joinSep c (y :: ys)) (hL x (by simp))]
    rw [split_join c (y :: ys) (by simp) (fun z hz => hL z (List.mem_cons_of_mem _ hz))]

theorem joinSep_ne_nil (c : Char) : ∀ L : List Str, L ≠ [] → (∀ x ∈ L, x ≠ []) →
    joinSep c L ≠ []
  | [], h, _ => absurd rfl h
  | [x], _, hL => hL x (by simp)
  | _ :: _ :: _, _, _ => by simp [joinSep_cons_cons]

theorem snoc_inj {α : Type} {L1 L2 : List α} {a b : α} (h : L1 ++ [a] = L2 ++ [b]) :
    L1 = L2 ∧ a = b := by
  have h' := congrArg List.reverse h
  simp only [List.reverse_append, List.reverse_singleton, List.singleton_append,
    List.cons.injEq] at h'
  exact ⟨List.reverse_inj.mp h'.2, h'.1⟩

/- --------------------------------------------------------------------------
The case-insensitive sort order.
-------------------------------------------------------------------------- -/

theorem lexLe_cons (a b : Char) (xs ys : Str) :
    lexLe (a :: xs) (b :: ys) = true ↔
      a.toNat < b.toNat ∨ (a.toNat = b.toNat ∧ lexLe xs ys = true) := by
  simp only [lexLe]
  split_ifs with h h2
  · exact ⟨fun _ => Or.inl h, fun _ => rfl⟩
  · simp only [Bool.false_eq_true, false_iff]
    rintro (hc | ⟨hc, -⟩) <;> omega
  · have he : a.toNat = b.toNat := by omega
    simp [he]

theorem lexLe_total : ∀ x y : Str, lexLe x y = true ∨ lexLe y x = true
  | [], _ => Or.inl rfl
  | _ :: _, [] => Or.inr rfl
  | a :: xs, b :: ys => by
    rcases Nat.lt_trichotomy a.toNat b.toNat with h | h | h
    · exact Or.inl ((lexLe_cons a b xs ys).mpr (Or.inl h))
    · rcases lexLe_total xs ys with hr | hr
      · exact Or.inl ((lexLe_cons a b xs ys).mpr (Or.inr ⟨h, hr⟩))
      · exact Or.inr ((lexLe_cons b a ys xs).mpr (Or.inr ⟨h.symm, hr⟩))
    · exact Or.inr ((lexLe_cons b a ys xs).mpr (Or.inl h))

theorem lexLe_trans : ∀ x y z : Str, lexLe x y = true → lexLe y z = true → lexLe x z = true
  | [], _, _ => fun _ _ => rfl
  | _ :: _, [], _ => fun h _ => absurd h (by simp [lexLe])
  | _ :: _, _ :: _, [] => fun _ h2 => absurd h2 (by simp [lexLe])
  | a :: xs, b :: ys, c2 :: zs => by
    intro h1 h2
    rw [lexLe_cons] at h1 h2 ⊢
    rcases h1 with h1 | ⟨h1e, h1r⟩ <;> rcases h2 with h2 | ⟨h2e, h2r⟩
    · exact Or.inl (by omega)
    · exact Or.inl (by omega)
    · exact Or.inl (by omega)
    · exact Or.inr ⟨by omega, lexLe_trans xs ys zs h1r h2r⟩

instance : IsTotal Entry entryLe := ⟨fun a b => lexLe_total (lowerStr a.name) (lowerStr b.name)⟩

instance : IsTrans Entry entryLe :=
  ⟨fun a b c h1 h2 => lexLe_trans (lowerStr a.name) (lowerStr b.name) (lowerStr c.name) h1 h2⟩

/- --------------------------------------------------------------------------
Scan membership and canonical-name structure.
-------------------------------------------------------------------------- -/

theorem mem_sortEntries (l : List Entry) (e : Entry) : e ∈ sortEntries l ↔ e ∈ l :=
  (List.perm_insertionSort entryLe l).mem_iff

theorem mem_refreshLists (files : List RelPath) (e : Entry) :
    e ∈ refreshLists true files ↔
      ∃ p ∈ files, gpgMatch p = true ∧ e = ⟨canonicalOf (relPosix p), p⟩ := by
  simp only [refreshLists, if_true, mem_sortEntries, scanEntries, List.mem_map, List.mem_filter]
  constructor
  · rintro ⟨p, ⟨hp, hm⟩, rfl⟩
    exact ⟨p, hp, hm, rfl⟩
  · rintro ⟨p, hp, hm, rfl⟩
    exact ⟨p, ⟨hp, hm⟩, rfl⟩

theorem gpg_len : (str ".gpg").length = 4 := rfl

theorem canonicalOf_append (u : Str) : canonicalOf (u ++ str ".gpg") = u := by
  unfold canonicalOf
  rw [if_pos ⟨u, rfl⟩, List.length_append, gpg_len,
    show u.length + 4 - 4 = u.length by omega]
  exact List.take_left u (str ".gpg")

theorem gpgMatch_fname (p : RelPath) (h : gpgMatch p = true) :
    ∃ u, p.fname = u ++ str ".gpg" := by
  have hs : str ".gpg" <:+ p.fname := by simpa [gpgMatch] using h
  obtain ⟨u, hu⟩ := hs
  exact ⟨u, hu.symm⟩

theorem relPosix_parts_nil (p : RelPath) (h : p.parts = []) : relPosix p = p.fname := by
  unfold relPosix components joinSlash
  rw [h]
  rfl

theorem relPosix_parts_cons (p : RelPath) (h : p.parts ≠ []) :
    relPosix p = joinSlash p.parts ++ slash :: p.fname := by
  unfold relPosix components joinSlash
  rw [joinSep_append slash p.parts h [p.fname] (by simp)]
  rfl

/-- Structure of a canonical name: one `.gpg` suffix stripped from the
joined relative path; re-appending the suffix recovers the path. -/
theorem canonical_structure (p : RelPath) (h : gpgMatch p = true) :
    ∃ u, p.fname = u ++ str ".gpg" ∧
      canonicalOf (relPosix p) = joinSlash (p.parts ++ [u]) ∧
      canonicalOf (relPosix p) ++ str ".gpg" = relPosix p := by
  obtain ⟨u, hu⟩ := gpgMatch_fname p h
  refine ⟨u, hu, ?_⟩
  rcases Decidable.em (p.parts = []) with hp | hp
  · have h1 : relPosix p = u ++ str ".gpg" := by rw [relPosix_parts_nil p hp, hu]
    have h2 : canonicalOf (relPosix p) = u := by rw [h1, canonicalOf_append]
    refine ⟨?_, by rw [h2, h1]⟩
    rw [h2, hp]
    rfl
  · have h1 : relPosix p = (joinSlash p.parts ++ slash :: u) ++ str ".gpg" := by
      rw [relPosix_parts_cons p hp, hu]
      simp [List.append_assoc]
    have h2 : canonicalOf (relPosix p) = joinSlash p.parts ++ slash :: u := by
      rw [h1, canonicalOf_append]
    have h3 : joinSlash (p.parts ++ [u]) = joinSlash p.parts ++ slash :: u := by
      unfold joinSlash
      rw [joinSep_append slash p.parts hp [u] (by simp)]
      rfl
    exact ⟨by rw [h2, h3], by rw [h2, ← h1]⟩

theorem validPath_facts (p : RelPath) (h : validPathB p = true) :
    ∀ c ∈ components p, c ≠ [] ∧ slash ∉ c := by
  intro c hc
  have hall := (List.all_eq_true.mp h) c hc
  rw [Bool.and_eq_true] at hall
  constructor
  · intro hnil
    rw [hnil] at hall
    simp at hall
  · intro hmem
    have : hasSlash c = true := by simp [hasSlash, hmem]
    rw [this] at hall
    simp at hall

theorem joinSlash_def (l : List Str) : joinSlash l = joinSep slash l := rfl

/- --------------------------------------------------------------------------
C4: duplicate canonical names.
-------------------------------------------------------------------------- -/

/-- C4 counterexample: the spec's own collision scenario - a store holding
`x.gpg` and `x/.gpg` - does not collide under the code's normalization:
the scan silently keeps both files as separate entries named `x` and `x/`
(which are distinct), and its result type carries no diagnostic at all. -/
theorem claim4_counterexample :
    refreshLists true [⟨[], str "x.gpg"⟩, ⟨[str "x"], str ".gpg"⟩] =
      [⟨str "x", ⟨[], str "x.gpg"⟩⟩, ⟨str "x/", ⟨[str "x"], str ".gpg"⟩⟩] ∧
      (str "x" : Str) ≠ str "x/" :=
  ⟨by decide, by decide⟩

theorem canonical_inj (p q : RelPath) (hp : validPathB p = true) (hq : validPathB q = true)
    (hmp : gpgMatch p = true) (hmq : gpgMatch q = true)
    (h : canonicalOf (relPosix p) = canonicalOf (relPosix q)) : p = q := by
  obtain ⟨u, hu, hcu, -⟩ := canonical_structure p hmp
  obtain ⟨v, hv, hcv, -⟩ := canonical_structure q hmq
  rw [hcu, hcv, joinSlash_def, joinSlash_def] at h
  have hpf := validPath_facts p hp
  have hqf := validPath_facts q hq
  have hufree : slash ∉ u := by
    intro hm
    exact (hpf p.fname (by simp [components])).2 (by rw [hu]; exact List.mem_append_left _ hm)
  have hvfree : slash ∉ v := by
    intro hm
    exact (hqf q.fname (by simp [components])).2 (by rw [hv]; exact List.mem_append_left _ hm)
  have hsplit1 : splitOnChar slash (joinSep slash (p.parts ++ [u])) = p.parts ++ [u] := by
    refine split_join slash _ (by simp) ?_
    intro x hx
    rcases List.mem_append.mp hx with hx1 | hx1
    · exact (hpf x (List.mem_append_left [p.fname] hx1)).2
    · rw [List.mem_singleton.mp hx1]
      exact hufree
  have hsplit2 : splitOnChar slash (joinSep slash (q.parts ++ [v])) = q.parts ++ [v] := by
    refine split_join slash _ (by simp) ?_
    intro x hx
    rcases List.mem_append.mp hx with hx1 | hx1
    · exact (hqf x (List.mem_append_left [q.fname] hx1)).2
    · rw [List.mem_singleton.mp hx1]
      exact hvfree
  have hlists : p.parts ++ [u] = q.parts ++ [v] := by
    rw [← hsplit1, ← hsplit2, h]
  obtain ⟨hparts, huv⟩ := snoc_inj hlists
  have hfname : p.fname = q.fname := by rw [hu, hv, huv]
  cases p
  cases q
  simp_all

/-- C4 amended: two distinct encrypted files of a valid store can never
map to the same canonical name - canonical naming is injective on the
matched files, so the Index never holds a duplicated name - and the scan
deduplicates nothing: it emits exactly one Entry per matched file and has
no IndexConsistencyError channel.  (The spec's collision scenario is thus
unreachable, see the counterexample.) -/
theorem claim4_names_injective (files : List RelPath)
    (hv : ∀ p ∈ files, validPathB p = true) (hnd : files.Nodup) :
    ((refreshLists true files).map Entry.name).Nodup ∧
      (refreshLists true files).length = (files.filter gpgMatch).length := by
  constructor
  · have hperm : List.Perm (refreshLists true files) (scanEntries files) := by
      simp only [refreshLists, if_true, sortEntries]
      exact List.perm_insertionSort _ _
    have hscan : ((scanEntries files).map Entry.name).Nodup := by
      unfold scanEntries
      rw [List.map_map]
      refine List.Nodup.map_on ?_ (hnd.filter _)
      intro x hx y hy hxy
      have hxf := List.mem_filter.mp hx
      have hyf := List.mem_filter.mp hy
      exact canonical_inj x y (hv x hxf.1) (hv y hyf.1) hxf.2 hyf.2 hxy
    exact ((hperm.map Entry.name).nodup_iff).mpr hscan
  · simp only [refreshLists, if_true, sortEntries]
    rw [(List.perm_insertionSort entryLe (scanEntries files)).length_eq]
    simp [scanEntries]

/-- Witness for C4 on the spec's scenario store. -/
theorem claim4_witness :
    ((refreshLists true [⟨[], str "x.gpg"⟩, ⟨[str "x"], str ".gpg"⟩]).map Entry.name).Nodup ∧
      (refreshLists true [⟨[], str "x.gpg"⟩, ⟨[str "x"], str ".gpg"⟩]).length =
        ([(⟨[], str "x.gpg"⟩ : RelPath), ⟨[str "x"], str ".gpg"⟩].filter gpgMatch).length :=
  claim4_names_injective [⟨[], str "x.gpg"⟩, ⟨[str "x"], str ".gpg"⟩] (by decide) (by decide)

/- --------------------------------------------------------------------------
C5: canonical-name normalization.
-------------------------------------------------------------------------- -/

/-- C5 counterexample: the file `x.gpg.gpg` is indexed under the canonical
name `x.gpg`, which still carries the encrypted-file suffix - only one
trailing `.gpg` is stripped, refuting "contains no encrypted-file
suffix". -/
theorem claim5_counterexample :
    refreshLists true [⟨[], str "x.gpg.gpg"⟩] = [⟨str "x.gpg", ⟨[], str "x.gpg.gpg"⟩⟩] ∧
      str ".gpg" <:+ str "x.gpg" :=
  ⟨by decide, by decide⟩

/-- C5 amended: every Entry of a scan stems from a matched file whose
separator-normalized relative path is exactly the canonical name with a
single trailing `.gpg` re-appended; the name contains a backslash only if
the relative path itself does.  (A name may still end in `.gpg` when the
file name carries a doubled suffix, see the counterexample.) -/
theorem claim5_canonical_names (files : List RelPath) (e : Entry)
    (he : e ∈ refreshLists true files) :
    ∃ p ∈ files, gpgMatch p = true ∧ e.path = p ∧
      e.name ++ str ".gpg" = relPosix p ∧
      (backslashChar ∉ relPosix p → backslashChar ∉ e.name) := by
  obtain ⟨p, hp, hm, rfl⟩ := (mem_refreshLists files e).mp he
  obtain ⟨u, -, -, happ⟩ := canonical_structure p hm
  refine ⟨p, hp, hm, rfl, happ, ?_⟩
  intro hnb hmem
  exact hnb (by rw [← happ]; exact List.mem_append_left _ hmem)

/-- Witness for C5 at a concrete store. -/
theorem claim5_witness :
    ∃ p ∈ [(⟨[str "email"], str "gmail.gpg"⟩ : RelPath)], gpgMatch p = true ∧
      (⟨str "email/gmail", ⟨[str "email"], str "gmail.gpg"⟩⟩ : Entry).path = p ∧
      str "email/gmail" ++ str ".gpg" = relPosix p ∧
      (backslashChar ∉ relPosix p → backslashChar ∉ (str "email/gmail" : Str)) :=
  claim5_canonical_names [⟨[str "email"], str "gmail.gpg"⟩]
    ⟨str "email/gmail", ⟨[str "email"], str "gmail.gpg"⟩⟩ (by decide)

/- --------------------------------------------------------------------------
C6: which files are skipped.
-------------------------------------------------------------------------- -/

/-- C6 counterexample: the hidden file `.hidden.gpg` is not skipped -
pathlib's glob does not treat a leading dot specially - so an Entry
derives from it, refuting "no Entry derives from a hidden file". -/
theorem claim6_counterexample :
    refreshLists true [⟨[], str ".hidden.gpg"⟩] =
      [⟨str ".hidden", ⟨[], str ".hidden.gpg"⟩⟩] := by
  decide

/-- C6 amended: the scan's only skip criterion is the file-name suffix:
every Entry derives from a store file whose name matches `*.gpg`, and no
Entry derives from a non-matching file; hidden (dot-prefixed) files whose
names match are indexed like any other. -/
theorem claim6_only_suffix_filter (files : List RelPath) :
    (∀ e ∈ refreshLists true files, e.path ∈ files ∧ gpgMatch e.path = true) ∧
      (∀ p ∈ files, gpgMatch p = false → ∀ e ∈ refreshLists true files, e.path ≠ p) := by
  constructor
  · intro e he
    obtain ⟨p, hp, hm, rfl⟩ := (mem_refreshLists files e).mp he
    exact ⟨hp, hm⟩
  · intro p _ hmf e he hep
    obtain ⟨p2, _, hm2, rfl⟩ := (mem_refreshLists files e).mp he
    have hx : gpgMatch p = true := by
      rw [← hep]
      exact hm2
    rw [hx] at hmf
    cases hmf

/-- Witness for C6 at the hidden-file store. -/
theorem claim6_witness :
    (⟨str ".hidden", ⟨[], str ".hidden.gpg"⟩⟩ : Entry).path ∈
        [(⟨[], str ".hidden.gpg"⟩ : RelPath)] ∧
      gpgMatch (⟨str ".hidden", ⟨[], str ".hidden.gpg"⟩⟩ : Entry).path = true :=
  (claim6_only_suffix_filter [⟨[], str ".hidden.gpg"⟩]).1
    ⟨str ".hidden", ⟨[], str ".hidden.gpg"⟩⟩ (by decide)

/- --------------------------------------------------------------------------
C9: the search filter.
-------------------------------------------------------------------------- -/

/-- C9: an empty or whitespace-only query returns the full flat projection
unchanged; otherwise the result is exactly the set of entries whose
lower-cased canonical name contains the normalized query as a substring,
as a sublist of the flat projection (hence in its order); the flat
projection itself, and therefore every filter result, is sorted
case-insensitively ascending by canonical name. -/
theorem claim9_search_filter (isDir : Bool) (files : List RelPath) (raw : Str) :
    (lowerStr (stripStr raw) = [] →
        onSearchChanged (refreshLists isDir files) raw = refreshLists isDir files) ∧
    (∀ e, e ∈ onSearchChanged (refreshLists isDir files) raw ↔
        e ∈ refreshLists isDir files ∧ lowerStr (stripStr raw) <:+: lowerStr e.name) ∧
    List.Sublist (onSearchChanged (refreshLists isDir files) raw) (refreshLists isDir files) ∧
    List.Pairwise entryLe (refreshLists isDir files) ∧
    List.Pairwise entryLe (onSearchChanged (refreshLists isDir files) raw) := by
  have hsorted : List.Pairwise entryLe (refreshLists isDir files) := by
    unfold refreshLists sortEntries
    exact List.sorted_insertionSort entryLe _
  by_cases hq : lowerStr (stripStr raw) = []
  · have he : onSearchChanged (refreshLists isDir files) raw = refreshLists isDir files := by
      simp only [onSearchChanged, if_pos hq]
    refine ⟨fun _ => he, ?_, ?_, hsorted, ?_⟩
    · intro e
      rw [he, hq]
      simp
    · rw [he]
    · rw [he]
      exact hsorted
  · have he : onSearchChanged (refreshLists isDir files) raw =
        (refreshLists isDir files).filter
          (fun e => decide (lowerStr (stripStr raw) <:+: lowerStr e.name)) := by
      simp only [onSearchChanged, if_neg hq]
    refine ⟨fun h => absurd h hq, ?_, ?_, hsorted, ?_⟩
    · intro e
      rw [he]
      simp [List.mem_filter]
    · rw [he]
      exact List.filter_sublist _
    · rw [he]
      exact List.Pairwise.sublist (List.filter_sublist _) hsorted

/-- Witness for C9: a whitespace-only query is the identity, and a
mixed-case query matches case-insensitively. -/
theorem claim9_witness :
    onSearchChanged (refreshLists true [⟨[], str "bank.gpg"⟩]) (str " ") =
        refreshLists true [⟨[], str "bank.gpg"⟩] ∧
      (⟨str "bank", ⟨[], str "bank.gpg"⟩⟩ : Entry) ∈
        onSearchChanged (refreshLists true [⟨[], str "bank.gpg"⟩]) (str "AN") := by
  have h := claim9_search_filter true [⟨[], str "bank.gpg"⟩] (str " ")
  have h2 := claim9_search_filter true [⟨[], str "bank.gpg"⟩] (str "AN")
  exact ⟨h.1 (by decide), (h2.2.1 _).mpr ⟨by decide, by decide⟩⟩

/- --------------------------------------------------------------------------
C10: folder-listing round trip - membership infrastructure.
-------------------------------------------------------------------------- -/

theorem mem_sortStrs (l : List Str) (x : Str) :
    x ∈ List.insertionSort strLe l ↔ x ∈ l :=
  (List.perm_insertionSort strLe l).mem_iff

theorem mem_loadFolderItems_dir (entries : List Entry) (path : List Str) (d : Str) :
    (d, true) ∈ loadFolderItems entries path ↔ d ∈ folderDirs entries path := by
  unfold loadFolderItems
  simp [List.mem_append, List.mem_map, mem_sortStrs, List.mem_dedup, Prod.ext_iff]

theorem mem_loadFolderItems_file (entries : List Entry) (path : List Str) (f : Str) :
    (f, false) ∈ loadFolderItems entries path ↔ f ∈ folderFiles entries path := by
  unfold loadFolderItems
  simp [List.mem_append, List.mem_map, mem_sortStrs, Prod.ext_iff]

theorem mem_folderRests (entries : List Entry) (path : List Str) (r : Str) :
    r ∈ folderRests entries path ↔
      ∃ e ∈ entries, folderRest (joinSlash path) e.name = some r := by
  unfold folderRests
  simp [List.mem_filterMap]

theorem mem_folderDirs (entries : List Entry) (path : List Str) (d : Str) :
    d ∈ folderDirs entries path ↔
      ∃ r, r ∈ folderRests entries path ∧ hasSlash r = true ∧ firstSeg r = d := by
  unfold folderDirs
  simp only [List.mem_map, List.mem_filter]
  constructor
  · rintro ⟨r, ⟨hr, hs⟩, hf⟩
    exact ⟨r, hr, hs, hf⟩
  · rintro ⟨r, hr, hs, hf⟩
    exact ⟨r, ⟨hr, hs⟩, hf⟩

theorem mem_folderFiles (entries : List Entry) (path : List Str) (f : Str) :
    f ∈ folderFiles entries path ↔
      f ∈ folderRests entries path ∧ hasSlash f = false := by
  unfold folderFiles
  simp [List.mem_filter]

theorem folderRest_nil (n : Str) : folderRest [] n = some n := by
  simp [folderRest]

theorem folderRest_append (pfx R : Str) (h : pfx ≠ []) :
    folderRest pfx (pfx ++ slash :: R) = some R := by
  unfold folderRest
  rw [if_neg h, if_pos ⟨R, by simp⟩]
  congr 1
  rw [show pfx ++ slash :: R = (pfx ++ [slash]) ++ R by simp, List.drop_left' (by simp)]

theorem folderRest_some (pfx n r : Str) (hp : pfx ≠ []) (h : folderRest pfx n = some r) :
    n = pfx ++ slash :: r := by
  unfold folderRest at h
  rw [if_neg hp] at h
  by_cases hpre : (pfx ++ [slash]) <+: n
  · rw [if_pos hpre] at h
    obtain ⟨t, ht⟩ := hpre
    injection h with h1
    rw [← ht, List.drop_left' (by simp)] at h1
    rw [← ht, h1]
    simp
  · rw [if_neg hpre] at h
    cases h

theorem good_facts (n : Str) (h : goodNameB n = true) :
    ∀ s ∈ (splitOnChar slash n).dropLast, s ≠ [] := by
  intro s hs hnil
  have := List.all_eq_true.mp h s hs
  rw [hnil] at this
  simp at this

theorem firstSeg_append (x t : Str) (h : slash ∉ x) : firstSeg (x ++ slash :: t) = x := by
  induction x with
  | nil => simp [firstSeg]
  | cons a x ih =>
    have ha : a ≠ slash := fun hc => h (by simp [hc])
    have hx : slash ∉ x := fun hc => h (List.mem_cons_of_mem _ hc)
    have ih2 := ih hx
    unfold firstSeg at ih2 ⊢
    simp only [List.cons_append, List.takeWhile_cons]
    rw [if_pos (by simp [ha]), ih2]

theorem joinSep_cons_cons_ne_nil (c : Char) (x y : Str) (ys : List Str) :
    joinSep c (x :: y :: ys) ≠ [] := by
  rw [joinSep_cons_cons]
  simp

theorem good_firstSeg_ne_nil (n : Str) (hg : goodNameB n = true) (hs : hasSlash n = true) :
    firstSeg n ≠ [] := by
  cases n with
  | nil => simp [hasSlash] at hs
  | cons a n2 =>
    by_cases ha : a = slash
    · exfalso
      have hsp : splitOnChar slash (a :: n2) = [] :: splitOnChar slash n2 := by
        simp [splitOnChar, ha]
      have hmem : ([] : Str) ∈ (splitOnChar slash (a :: n2)).dropLast := by
        rw [hsp]
        cases hsp2 : splitOnChar slash n2 with
        | nil => exact absurd hsp2 (splitOnChar_ne_nil _ _)
        | cons s ss => simp
      exact good_facts (a :: n2) hg [] hmem rfl
    · unfold firstSeg
      rw [List.takeWhile_cons, if_pos (by simp [ha])]
      simp

/- --------------------------------------------------------------------------
C10: round trip, forward direction (reconstructed names are entry names).
-------------------------------------------------------------------------- -/

theorem reach_joinSlash_ne_nil (entries : List Entry)
    (hG : ∀ e ∈ entries, goodNameB e.name = true) :
    ∀ {p : List Str}, ReachDir entries p → p ≠ [] → joinSlash p ≠ [] := by
  intro p hr hne
  induction hr with
  | nil => exact absurd rfl hne
  | @snoc p d hp hd =>
    cases p with
    | nil =>
      show joinSlash [d] ≠ []
      have hd2 := (mem_loadFolderItems_dir entries [] d).mp hd
      obtain ⟨r, hrr, hslash, hfirst⟩ := (mem_folderDirs entries [] d).mp hd2
      obtain ⟨e, he, hre⟩ := (mem_folderRests entries [] r).mp hrr
      rw [show joinSlash ([] : List Str) = [] from rfl, folderRest_nil] at hre
      injection hre with hre1
      show joinSep slash [d] ≠ []
      rw [show joinSep slash [d] = d from rfl, ← hfirst, ← hre1]
      exact good_firstSeg_ne_nil e.name (hG e he) (hre1 ▸ hslash)
    | cons x xs =>
      show joinSlash (x :: xs ++ [d]) ≠ []
      rw [joinSlash_def]
      cases hxs : xs ++ [d] with
      | nil => exact absurd hxs (by simp)
      | cons y ys =>
        rw [show (x :: xs ++ [d] : List Str) = x :: (xs ++ [d]) from rfl, hxs]
        exact joinSep_cons_cons_ne_nil slash x y ys

theorem reconstructed_mem (entries : List Entry)
    (hG : ∀ e ∈ entries, goodNameB e.name = true) (n : Str)
    (hrec : Reconstructed entries n) : ∃ e ∈ entries, e.name = n := by
  obtain ⟨p, f, hreach, hf, rfl⟩ := hrec
  have hf2 := (mem_loadFolderItems_file entries p f).mp hf
  obtain ⟨hfr, hfs⟩ := (mem_folderFiles entries p f).mp hf2
  obtain ⟨e, he, hre⟩ := (mem_folderRests entries p f).mp hfr
  by_cases hj : joinSlash p = []
  · have hp : p = [] := by
      by_contra hne
      exact reach_joinSlash_ne_nil entries hG hreach hne hj
    subst hp
    rw [show joinSlash ([] : List Str) = [] from rfl, folderRest_nil] at hre
    injection hre with hre1
    exact ⟨e, he, by rw [hre1]; rfl⟩
  · have hpne : p ≠ [] := by
      intro hc
      rw [hc] at hj
      exact hj rfl
    have hn : e.name = joinSlash p ++ slash :: f := folderRest_some _ _ _ hj hre
    refine ⟨e, he, ?_⟩
    rw [hn]
    simp only [joinSlash_def]
    rw [joinSep_append slash p hpne [f] (by simp)]
    rfl

/- --------------------------------------------------------------------------
C10: round trip, backward direction (every entry name is reconstructed).
-------------------------------------------------------------------------- -/

theorem mem_reconstructed (entries : List Entry)
    (hG : ∀ e ∈ entries, goodNameB e.name = true) (n : Str)
    (hmem : ∃ e ∈ entries, e.name = n) : Reconstructed entries n := by
  obtain ⟨e, he, rfl⟩ := hmem
  have hjoin : joinSep slash (splitOnChar slash e.name) = e.name := join_split slash e.name
  set L := splitOnChar slash e.name with hLdef
  have hLne : L ≠ [] := splitOnChar_ne_nil slash e.name
  have hL1 : 1 ≤ L.length := List.length_pos.mpr hLne
  have hLfree : ∀ x ∈ L, slash ∉ x := fun x hx => not_mem_splitOnChar slash e.name x hx
  have hgood : ∀ s ∈ L.dropLast, s ≠ [] := good_facts e.name (hG e he)
  have htake_sub : ∀ k, k ≤ L.length - 1 → ∀ x ∈ L.take k, x ≠ [] := by
    intro k hk x hx
    refine hgood x ?_
    rw [List.dropLast_eq_take]
    have h1 : L.take k = (L.take (L.length - 1)).take k := by
      rw [List.take_take]
      congr 1
      omega
    rw [h1] at hx
    exact List.mem_of_mem_take hx
  have hrest : ∀ k, k ≤ L.length - 1 →
      folderRest (joinSlash (L.take k)) e.name = some (joinSep slash (L.drop k)) := by
    intro k hk
    by_cases hk0 : k = 0
    · subst hk0
      rw [List.take_zero, List.drop_zero, show joinSlash ([] : List Str) = [] from rfl,
        folderRest_nil, hjoin]
    · have hklen : k < L.length := by omega
      have htk_ne : L.take k ≠ [] := by
        have hpos : 0 < (L.take k).length := by
          rw [List.length_take]
          omega
        exact List.length_pos.mp hpos
      have hdk_ne : L.drop k ≠ [] := by
        have hpos : 0 < (L.drop k).length := by
          rw [List.length_drop]
          omega
        exact List.length_pos.mp hpos
      have hJne : joinSlash (L.take k) ≠ [] := by
        rw [joinSlash_def]
        exact joinSep_ne_nil slash _ htk_ne (htake_sub k hk)
      have hsplitL : e.name = joinSlash (L.take k) ++ slash :: joinSep slash (L.drop k) := by
        rw [joinSlash_def]
        calc e.name = joinSep slash L := hjoin.symm
          _ = joinSep slash (L.take k ++ L.drop k) := by rw [List.take_append_drop]
          _ = joinSep slash (L.take k) ++ slash :: joinSep slash (L.drop k) :=
            joinSep_append slash _ htk_ne _ hdk_ne
      rw [hsplitL]
      exact folderRest_append _ _ hJne
  have hreach : ∀ k, k ≤ L.length - 1 → ReachDir entries (L.take k) := by
    intro k
    induction k with
    | zero =>
      intro _
      rw [List.take_zero]
      exact ReachDir.nil
    | succ k ih =>
      intro hk
      have hr := ih (by omega)
      have hklen : k < L.length := by omega
      have htk : L.take (k + 1) = L.take k ++ [L[k]] := by
        rw [List.take_succ, List.getElem?_eq_getElem hklen]
        rfl
      have hgetd : L.drop k = L[k] :: L.drop (k + 1) := List.drop_eq_getElem_cons hklen
      have hd2 : L.drop (k + 1) ≠ [] := by
        have hpos : 0 < (L.drop (k + 1)).length := by
          rw [List.length_drop]
          omega
        exact List.length_pos.mp hpos
      have hji : joinSep slash (L.drop k) = L[k] ++ slash :: joinSep slash (L.drop (k + 1)) := by
        cases hd3 : L.drop (k + 1) with
        | nil => exact absurd hd3 hd2
        | cons y ys => rw [hgetd, hd3, joinSep_cons_cons]
      rw [htk]
      refine ReachDir.snoc hr ?_
      rw [mem_loadFolderItems_dir, mem_folderDirs]
      refine ⟨joinSep slash (L.drop k), ?_, ?_, ?_⟩
      · rw [mem_folderRests]
        exact ⟨e, he, hrest k (by omega)⟩
      · rw [hji]
        simp [hasSlash]
      · rw [hji, firstSeg_append _ _ (hLfree _ (List.getElem_mem hklen))]
  have hdrop : L.drop (L.length - 1) = [L[L.length - 1]] := by
    rw [List.drop_eq_getElem_cons (by omega)]
    rw [show L.length - 1 + 1 = L.length by omega, List.drop_length]
  have hlast_free : slash ∉ L[L.length - 1] := hLfree _ (List.getElem_mem (by omega))
  refine ⟨L.take (L.length - 1), joinSep slash (L.drop (L.length - 1)),
    hreach _ le_rfl, ?_, ?_⟩
  · rw [mem_loadFolderItems_file, mem_folderFiles]
    refine ⟨?_, ?_⟩
    · rw [mem_folderRests]
      exact ⟨e, he, hrest (L.length - 1) le_rfl⟩
    · rw [hdrop, show joinSep slash [L[L.length - 1]] = L[L.length - 1] from rfl]
      simp [hasSlash, hlast_free]
  · rw [hdrop, show joinSep slash [L[L.length - 1]] = L[L.length - 1] from rfl]
    have hLsnoc : L.take (L.length - 1) ++ [L[L.length - 1]] = L := by
      conv_rhs => rw [← List.take_append_drop (L.length - 1) L]
      rw [hdrop]
    rw [hLsnoc, joinSlash_def]
    exact hjoin.symm

/-- The hierarchical/flat round trip for any entry list with well formed
names. -/
theorem listFolder_roundTrip (entries : List Entry)
    (hG : ∀ e ∈ entries, goodNameB e.name = true) (n : Str) :
    Reconstructed entries n ↔ ∃ e ∈ entries, e.name = n :=
  ⟨reconstructed_mem entries hG n, mem_reconstructed entries hG n⟩

/-- Scanned canonical names are well formed for valid stores. -/
theorem scan_good (files : List RelPath) (hv : ∀ p ∈ files, validPathB p = true) :
    ∀ e ∈ refreshLists true files, goodNameB e.name = true := by
  intro e he
  obtain ⟨p, hp, hm, rfl⟩ := (mem_refreshLists files e).mp he
  obtain ⟨u, hu, hcu, -⟩ := canonical_structure p hm
  have hfacts := validPath_facts p (hv p hp)
  have hufree : slash ∉ u := by
    intro hmem
    exact (hfacts p.fname (by simp [components])).2 (by rw [hu]; exact List.mem_append_left _ hmem)
  have hsplit : splitOnChar slash (joinSep slash (p.parts ++ [u])) = p.parts ++ [u] := by
    refine split_join slash _ (by simp) ?_
    intro x hx
    rcases List.mem_append.mp hx with hx1 | hx1
    · exact (hfacts x (List.mem_append_left [p.fname] hx1)).2
    · rw [List.mem_singleton.mp hx1]
      exact hufree
  show goodNameB (canonicalOf (relPosix p)) = true
  unfold goodNameB
  rw [hcu, joinSlash_def, hsplit]
  have hdl : (p.parts ++ [u]).dropLast = p.parts := by simp
  rw [hdl, List.all_eq_true]
  intro s hs
  have hne := (hfacts s (List.mem_append_left [p.fname] hs)).1
  cases s with
  | nil => exact absurd rfl hne
  | cons a t => rfl

/-- C10: for every Index scanned from a valid store, recursively expanding
the folder listing from the root - descending into each child directory
and collecting each child file joined onto its path - reconstructs exactly
the set of canonical names of the flat Entry list. -/
theorem claim10_folder_roundtrip (files : List RelPath)
    (hv : ∀ p ∈ files, validPathB p = true) (n : Str) :
    Reconstructed (refreshLists true files) n ↔
      ∃ e ∈ refreshLists true files, e.name = n :=
  listFolder_roundTrip (refreshLists true files) (scan_good files hv) n

/-- Witness for C10 on the spec's scenario store. -/
theorem claim10_witness :
    (∀ p ∈ [(⟨[str "email"], str "gmail.gpg"⟩ : RelPath), ⟨[], str "bank.gpg"⟩],
        validPathB p = true) ∧
      (Reconstructed
          (refreshLists true [⟨[str "email"], str "gmail.gpg"⟩, ⟨[], str "bank.gpg"⟩])
          (str "email/gmail") ↔
        ∃ e ∈ refreshLists true [⟨[str "email"], str "gmail.gpg"⟩, ⟨[], str "bank.gpg"⟩],
          e.name = str "email/gmail") :=
  ⟨by decide,
    claim10_folder_roundtrip [⟨[str "email"], str "gmail.gpg"⟩, ⟨[], str "bank.gpg"⟩]
      (by decide) (str "email/gmail")⟩
